import Mathlib

/-!
Verification of the lock-free event bus (topics, partitions, consumer
groups, MPSC ring buffer) against its natural-language specification.

The C++ sources are shallowly embedded: each C++ function is translated
into a Lean function over explicit state.  `size_t` cursors and sequence
numbers are modelled as `Nat` (the program never approaches the 2^64
wrap, and the `intptr_t` casts in the ring are the identity below 2^63).
Sequential (single-thread) semantics are used throughout: concurrent
interleavings are outside the embedding.
-/

set_option autoImplicit false

namespace eventbus

/-- State of `LockFreeMpscQueue<T>` from `src/lib/core/lock_free_mpsc_queue.hpp`.
The buffer of `capacity` nodes `{ T item_; atomic<size_t> seq_; }` is modelled
as two functions on slot indices; only indices below `capacity` are ever read
or written because every access masks the cursor with `capacity - 1`. -/
structure MState (T : Type) where
  capacity : Nat
  seq : Nat → Nat
  item : Nat → T
  head : Nat
  tail : Nat

/-- The constructor `LockFreeMpscQueue(capacity)`: stores the capacity
unchanged and sets `slot[i].seq_ = i` for every slot; items start as
default-constructed values, modelled by an explicit default `d`. -/
def init {T : Type} (capacity : Nat) (d : T) : MState T :=
  { capacity := capacity
    seq := fun i => i
    item := fun _ => d
    head := 0
    tail := 0 }

/-- `LockFreeMpscQueue::enqueue`, sequential semantics.  `pos` is the tail
cursor; the slot index is `pos & (capacity_ - 1)`; `diff` is the signed
difference `(intptr_t)seq - (intptr_t)pos`.  With a single thread the
`compare_exchange_weak` on `tail_` always succeeds, so on `diff == 0` the slot
is claimed, the item written and the slot sequence published as `pos + 1`.
On `diff < 0` the queue is full and `false` is returned.  On `diff > 0` the
code re-reads `tail_`, which a single thread never changes, so it loops
forever; that case is modelled as `none` (divergence). -/
def enqueue {T : Type} (s : MState T) (x : T) : Option (Bool × MState T) :=
  let pos := s.tail
  let slot_index := pos &&& (s.capacity - 1)
  let seq := s.seq slot_index
  let diff : Int := (seq : Int) - (pos : Int)
  if diff = 0 then
    some (true,
      { s with tail := pos + 1
               item := fun i => if i = slot_index then x else s.item i
               seq := fun i => if i = slot_index then pos + 1 else s.seq i })
  else if diff < 0 then
    some (false, s)
  else
    none

/-- `LockFreeMpscQueue::dequeue`, sequential semantics.  `pos` is the head
cursor.  If `slot[pos & (C-1)].seq_ != pos + 1` there is no data and `false`
is returned (modelled by `none`); otherwise the item is read out, the slot
sequence is set to `pos + capacity_` and the head advances to `pos + 1`. -/
def dequeue {T : Type} (s : MState T) : Option T × MState T :=
  let pos := s.head
  let slot_index := pos &&& (s.capacity - 1)
  let node_seq := s.seq slot_index
  if node_seq ≠ pos + 1 then (none, s)
  else
    (some (s.item slot_index),
     { s with seq := fun i => if i = slot_index then pos + s.capacity else s.seq i
              head := pos + 1 })

/-- A sequential ring operation: an enqueue of an item, or a dequeue. -/
inductive Op (T : Type) where
  | enq (x : T)
  | deq
deriving DecidableEq

/-- Run a sequence of operations on the concrete ring.  Returns the final
state, the list of items accepted by successful enqueues (in call order) and
the list of items returned by successful dequeues (in call order); `none` if
some enqueue diverges. -/
def runC {T : Type} (s : MState T) : List (Op T) → Option (MState T × List T × List T)
  | [] => some (s, [], [])
  | Op.enq x :: ops =>
      match enqueue s x with
      | none => none
      | some (b, s1) =>
          match runC s1 ops with
          | none => none
          | some (sf, acc, outs) => some (sf, if b then x :: acc else acc, outs)
  | Op.deq :: ops =>
      let r := dequeue s
      match runC r.2 ops with
      | none => none
      | some (sf, acc, outs) =>
          some (sf, acc, match r.1 with | some y => y :: outs | none => outs)

/-- Modelled from the spec: the reference bounded FIFO of capacity `C`.
An enqueue is accepted exactly when fewer than `C` items are pending and
appends at the back; a dequeue removes the front item when one is pending.
Returns the pending items, the accepted items and the dequeued items. -/
def runA {T : Type} (C : Nat) (l : List T) : List (Op T) → (List T × List T × List T)
  | [] => (l, [], [])
  | Op.enq x :: ops =>
      if l.length < C then
        match runA C (l ++ [x]) ops with
        | (lf, acc, outs) => (lf, x :: acc, outs)
      else runA C l ops
  | Op.deq :: ops =>
      match l with
      | [] => runA C [] ops
      | y :: ys =>
          match runA C ys ops with
          | (lf, acc, outs) => (lf, acc, y :: outs)

/-- Coupling invariant between a ring state and the list `l` of pending
items.  The capacity is `2 ^ k` with `k ≥ 1`; the cursors satisfy
`tail = head + |l|` with `|l| ≤ capacity`; for each offset `i < capacity`
the slot of position `head + i` holds sequence `head + i + 1` and the
`i`-th pending item when `i < |l|`, and sequence `head + i` (empty, ready
for its next fill) when `|l| ≤ i`. -/
def Inv {T : Type} (k : Nat) (s : MState T) (l : List T) : Prop :=
  s.capacity = 2 ^ k ∧ 1 ≤ k ∧
  s.tail = s.head + l.length ∧ l.length ≤ s.capacity ∧
  ∀ i, i < s.capacity →
    (i < l.length → s.seq ((s.head + i) % s.capacity) = s.head + i + 1 ∧
                    l[i]? = some (s.item ((s.head + i) % s.capacity))) ∧
    (l.length ≤ i → s.seq ((s.head + i) % s.capacity) = s.head + i)

lemma offset_mod_inj {C h i j : Nat} (hi : i < C) (hj : j < C)
    (hmod : (h + i) % C = (h + j) % C) : i = j := by
  have h1 : i ≡ j [MOD C] := Nat.ModEq.add_left_cancel (Nat.ModEq.refl h) hmod
  have h2 : i % C = j % C := h1
  rwa [Nat.mod_eq_of_lt hi, Nat.mod_eq_of_lt hj] at h2

lemma Inv.init {T : Type} (k : Nat) (hk : 1 ≤ k) (d : T) :
    Inv k (init (2 ^ k) d) ([] : List T) := by
  refine ⟨rfl, hk, rfl, by simp [eventbus.init], ?_⟩
  intro i hi
  constructor
  · intro h; simp at h
  · intro _
    simp only [eventbus.init, Nat.zero_add]
    exact Nat.mod_eq_of_lt hi

lemma mask_eq_mod {T : Type} {k : Nat} {s : MState T} (hcap : s.capacity = 2 ^ k)
    (p : Nat) : p &&& (s.capacity - 1) = p % s.capacity := by
  rw [hcap]
  exact Nat.and_pow_two_sub_one_eq_mod p k

lemma capacity_pos {T : Type} {k : Nat} {s : MState T} (hcap : s.capacity = 2 ^ k) :
    0 < s.capacity := by
  rw [hcap]; positivity

lemma enqueue_ok {T : Type} {k : Nat} {s : MState T} {l : List T}
    (hinv : Inv k s l) (hlt : l.length < s.capacity) (x : T) :
    ∃ s1, enqueue s x = some (true, s1) ∧ Inv k s1 (l ++ [x]) ∧
      s1.capacity = s.capacity ∧ s1.tail = s.tail + 1 ∧ s1.head = s.head := by
  obtain ⟨hcap, hk, htail, hlen, hslots⟩ := hinv
  have hmask : s.tail &&& (s.capacity - 1) = s.tail % s.capacity := mask_eq_mod hcap s.tail
  have hseq : s.seq (s.tail % s.capacity) = s.tail := by
    have h := (hslots l.length hlt).2 (Nat.le_refl _)
    rw [htail]
    exact h
  refine ⟨{ s with
            tail := s.tail + 1,
            item := fun i => if i = s.tail % s.capacity then x else s.item i,
            seq := fun i => if i = s.tail % s.capacity then s.tail + 1 else s.seq i },
          ?_, ?_, ?_, ?_, ?_⟩
  case refine_1 =>
    have hcond : ((s.seq (s.tail &&& (s.capacity - 1)) : Nat) : Int) -
        ((s.tail : Nat) : Int) = 0 := by
      rw [hmask, hseq, sub_self]
    simp only [enqueue]
    rw [if_pos hcond, hmask]
  case refine_2 =>
    refine ⟨hcap, hk, ?_, ?_, ?_⟩
    · show s.tail + 1 = s.head + (l ++ [x]).length
      simp only [List.length_append, List.length_cons, List.length_nil]
      omega
    · show (l ++ [x]).length ≤ s.capacity
      simp only [List.length_append, List.length_cons, List.length_nil]
      omega
    · intro i hi
      replace hi : i < s.capacity := hi
      constructor
      · intro hilt
        replace hilt : i < l.length + 1 := by
          simpa using hilt
        rcases Nat.lt_or_ge i l.length with hc | hc
        · -- an old pending item keeps its slot untouched
          have hne : (s.head + i) % s.capacity ≠ s.tail % s.capacity := by
            rw [htail]
            intro h
            exact absurd (offset_mod_inj hi hlt h) (Nat.ne_of_lt hc)
          have hold := (hslots i hi).1 hc
          refine ⟨?_, ?_⟩
          · show (if (s.head + i) % s.capacity = s.tail % s.capacity
                then s.tail + 1 else s.seq ((s.head + i) % s.capacity)) = s.head + i + 1
            rw [if_neg hne]
            exact hold.1
          · show (l ++ [x])[i]? = some (if (s.head + i) % s.capacity = s.tail % s.capacity
                then x else s.item ((s.head + i) % s.capacity))
            rw [List.getElem?_append_left hc, if_neg hne]
            exact hold.2
        · -- the freshly written item at offset |l|
          have hieq : i = l.length := by omega
          have heq : (s.head + i) % s.capacity = s.tail % s.capacity := by
            rw [htail, hieq]
          refine ⟨?_, ?_⟩
          · show (if (s.head + i) % s.capacity = s.tail % s.capacity
                then s.tail + 1 else s.seq ((s.head + i) % s.capacity)) = s.head + i + 1
            rw [if_pos heq, htail, hieq]
          · show (l ++ [x])[i]? = some (if (s.head + i) % s.capacity = s.tail % s.capacity
                then x else s.item ((s.head + i) % s.capacity))
            rw [if_pos heq, hieq, List.getElem?_concat_length]
      · intro hge
        replace hge : l.length + 1 ≤ i := by
          simpa using hge
        have hne : (s.head + i) % s.capacity ≠ s.tail % s.capacity := by
          rw [htail]
          intro h
          have := offset_mod_inj hi hlt h
          omega
        have hold := (hslots i hi).2 (by omega)
        show (if (s.head + i) % s.capacity = s.tail % s.capacity
            then s.tail + 1 else s.seq ((s.head + i) % s.capacity)) = s.head + i
        rw [if_neg hne]
        exact hold
  case refine_3 => rfl
  case refine_4 => rfl
  case refine_5 => rfl

lemma enqueue_full {T : Type} {k : Nat} {s : MState T} {l : List T}
    (hinv : Inv k s l) (hfull : l.length = s.capacity) (x : T) :
    enqueue s x = some (false, s) := by
  obtain ⟨hcap, hk, htail, hlen, hslots⟩ := hinv
  have hC2 : 2 ≤ s.capacity := by
    rw [hcap]
    calc (2 : Nat) = 2 ^ 1 := rfl
    _ ≤ 2 ^ k := Nat.pow_le_pow_right (by norm_num) hk
  have hmask : s.tail &&& (s.capacity - 1) = s.tail % s.capacity := mask_eq_mod hcap s.tail
  have hslot : s.tail % s.capacity = (s.head + 0) % s.capacity := by
    rw [htail, hfull, Nat.add_zero, Nat.add_mod_right]
  have hseq : s.seq (s.tail % s.capacity) = s.head + 1 := by
    rw [hslot]
    exact ((hslots 0 (by omega)).1 (by omega)).1
  have hne : ((s.head + 1 : Nat) : Int) - ((s.tail : Nat) : Int) ≠ 0 := by
    rw [htail, hfull]
    push_cast
    omega
  have hneg : ((s.head + 1 : Nat) : Int) - ((s.tail : Nat) : Int) < 0 := by
    rw [htail, hfull]
    push_cast
    omega
  simp only [enqueue, hmask, hseq]
  rw [if_neg hne, if_pos hneg]

lemma dequeue_ok {T : Type} {k : Nat} {s : MState T} {x : T} {xs : List T}
    (hinv : Inv k s (x :: xs)) :
    ∃ s1, dequeue s = (some x, s1) ∧ Inv k s1 xs ∧
      s1.capacity = s.capacity ∧ s1.head = s.head + 1 ∧ s1.tail = s.tail := by
  obtain ⟨hcap, hk, htail, hlen, hslots⟩ := hinv
  have hC : 0 < s.capacity := capacity_pos hcap
  have hmask : s.head &&& (s.capacity - 1) = s.head % s.capacity := mask_eq_mod hcap s.head
  have h0 := (hslots 0 hC).1 (by simp)
  have hseq : s.seq (s.head % s.capacity) = s.head + 1 := by
    have := h0.1
    rwa [Nat.add_zero] at this
  have hitem : s.item (s.head % s.capacity) = x := by
    have := h0.2
    rw [Nat.add_zero] at this
    simpa using this.symm
  have hlen' : xs.length + 1 ≤ s.capacity := by
    simpa using hlen
  have hadd : ∀ i : Nat, s.head + 1 + i = s.head + (i + 1) := by
    intro i; omega
  refine ⟨{ s with
            seq := fun i => if i = s.head % s.capacity
              then s.head + s.capacity else s.seq i,
            head := s.head + 1 },
          ?_, ?_, ?_, ?_, ?_⟩
  case refine_1 =>
    have hcond : ¬ s.seq (s.head &&& (s.capacity - 1)) ≠ s.head + 1 := by
      rw [hmask, hseq]
      exact fun h => h rfl
    simp only [dequeue]
    rw [if_neg hcond, hmask, hitem]
  case refine_2 =>
    refine ⟨hcap, hk, ?_, ?_, ?_⟩
    case refine_2 =>
      show xs.length ≤ s.capacity
      omega
    · show s.tail = s.head + 1 + xs.length
      simp only [List.length_cons] at htail
      omega
    · intro i hi
      replace hi : i < s.capacity := hi
      constructor
      · intro hilt
        replace hilt : i < xs.length := hilt
        have hi1 : i + 1 < s.capacity := by omega
        have hne : (s.head + 1 + i) % s.capacity ≠ s.head % s.capacity := by
          rw [hadd]
          intro h
          have h' : (s.head + (i + 1)) % s.capacity = (s.head + 0) % s.capacity := by
            rwa [Nat.add_zero]
          have := offset_mod_inj hi1 hC h'
          omega
        have hold := (hslots (i + 1) hi1).1 (by simpa using Nat.succ_lt_succ hilt)
        refine ⟨?_, ?_⟩
        · show (if (s.head + 1 + i) % s.capacity = s.head % s.capacity
              then s.head + s.capacity else s.seq ((s.head + 1 + i) % s.capacity)) =
            s.head + 1 + i + 1
          rw [if_neg hne, hadd]
          exact hold.1
        · show xs[i]? = some (s.item ((s.head + 1 + i) % s.capacity))
          rw [hadd]
          have h2 := hold.2
          rwa [List.getElem?_cons_succ] at h2
      · intro hge
        replace hge : xs.length ≤ i := hge
        rcases Nat.lt_or_ge (i + 1) s.capacity with hi1 | hi1
        · have hne : (s.head + 1 + i) % s.capacity ≠ s.head % s.capacity := by
            rw [hadd]
            intro h
            have h' : (s.head + (i + 1)) % s.capacity = (s.head + 0) % s.capacity := by
              rwa [Nat.add_zero]
            have := offset_mod_inj hi1 hC h'
            omega
          have hold := (hslots (i + 1) hi1).2 (by simpa using Nat.succ_le_succ hge)
          show (if (s.head + 1 + i) % s.capacity = s.head % s.capacity
              then s.head + s.capacity else s.seq ((s.head + 1 + i) % s.capacity)) =
            s.head + 1 + i
          rw [if_neg hne, hadd]
          exact hold
        · have heq : (s.head + 1 + i) % s.capacity = s.head % s.capacity := by
            rw [show s.head + 1 + i = s.head + s.capacity by omega, Nat.add_mod_right]
          show (if (s.head + 1 + i) % s.capacity = s.head % s.capacity
              then s.head + s.capacity else s.seq ((s.head + 1 + i) % s.capacity)) =
            s.head + 1 + i
          rw [if_pos heq]
          omega
  case refine_3 => rfl
  case refine_4 => rfl
  case refine_5 => rfl

lemma dequeue_empty {T : Type} {k : Nat} {s : MState T}
    (hinv : Inv k s ([] : List T)) : dequeue s = (none, s) := by
  obtain ⟨hcap, hk, htail, hlen, hslots⟩ := hinv
  have hC : 0 < s.capacity := capacity_pos hcap
  have hmask : s.head &&& (s.capacity - 1) = s.head % s.capacity := mask_eq_mod hcap s.head
  have hseq : s.seq (s.head % s.capacity) = s.head := by
    have := (hslots 0 hC).2 (by simp)
    simpa using this
  simp only [dequeue, hmask, hseq, ne_eq]
  rw [if_pos (by omega)]

lemma runC_refines {T : Type} {k : Nat} (ops : List (Op T)) :
    ∀ (s : MState T) (l : List T), Inv k s l →
    ∃ sf lf acc outs,
      runC s ops = some (sf, acc, outs) ∧
      runA s.capacity l ops = (lf, acc, outs) ∧
      Inv k sf lf ∧
      l ++ acc = outs ++ lf ∧
      sf.capacity = s.capacity ∧
      sf.tail = s.tail + acc.length ∧
      sf.head = s.head + outs.length := by
  induction ops with
  | nil =>
      intro s l hinv
      exact ⟨s, l, [], [], rfl, rfl, hinv, by simp, rfl, by simp, by simp⟩
  | cons op ops ih =>
      intro s l hinv
      cases op with
      | enq x =>
          rcases Nat.lt_or_ge l.length s.capacity with hlt | hge
          · obtain ⟨s1, henq, hinv1, hcap1, htail1, hhead1⟩ := enqueue_ok hinv hlt x
            obtain ⟨sf, lf, acc, outs, hrunC, hrunA, hinvf, happ, hcapf, htailf, hheadf⟩ :=
              ih s1 (l ++ [x]) hinv1
            rw [hcap1] at hrunA
            refine ⟨sf, lf, x :: acc, outs, ?_, ?_, hinvf, ?_, ?_, ?_, ?_⟩
            · simp [runC, henq, hrunC]
            · simp only [runA, if_pos hlt, hrunA]
            · rw [show l ++ x :: acc = (l ++ [x]) ++ acc by simp]
              exact happ
            · omega
            · simp only [List.length_cons]
              omega
            · omega
          · have hfull : l.length = s.capacity := Nat.le_antisymm hinv.2.2.2.1 hge
            have henq := enqueue_full hinv hfull x
            obtain ⟨sf, lf, acc, outs, hrunC, hrunA, hinvf, happ, hcapf, htailf, hheadf⟩ :=
              ih s l hinv
            refine ⟨sf, lf, acc, outs, ?_, ?_, hinvf, happ, hcapf, htailf, hheadf⟩
            · simp [runC, henq, hrunC]
            · have hnlt : ¬ l.length < s.capacity := by omega
              simp only [runA, if_neg hnlt, hrunA]
      | deq =>
          cases l with
          | nil =>
              have hdeq := dequeue_empty hinv
              obtain ⟨sf, lf, acc, outs, hrunC, hrunA, hinvf, happ, hcapf, htailf, hheadf⟩ :=
                ih s [] hinv
              refine ⟨sf, lf, acc, outs, ?_, ?_, hinvf, happ, hcapf, htailf, hheadf⟩
              · simp only [runC, hdeq, hrunC]
              · simp only [runA, hrunA]
          | cons x xs =>
              obtain ⟨s1, hdeq, hinv1, hcap1, hhead1, htail1⟩ := dequeue_ok hinv
              obtain ⟨sf, lf, acc, outs, hrunC, hrunA, hinvf, happ, hcapf, htailf, hheadf⟩ :=
                ih s1 xs hinv1
              rw [hcap1] at hrunA
              refine ⟨sf, lf, acc, x :: outs, ?_, ?_, hinvf, ?_, ?_, ?_, ?_⟩
              · simp only [runC, hdeq, hrunC]
              · simp only [runA, hrunA]
              · simp only [List.cons_append]
                rw [happ]
              · omega
              · omega
              · simp only [List.length_cons]
                omega

/-- C1, amended to capacities 2^k with k ≥ 1: every sequential interleaving of
enqueue and dequeue calls on a freshly constructed `LockFreeMpscQueue` of
power-of-two capacity at least 2 behaves as the bounded FIFO reference model
`runA`: every call terminates, the items accepted by successful enqueues and
the items returned by successful dequeues match the reference model exactly,
the dequeued sequence is a prefix of the accepted sequence (so the item
dequeued at cursor position `pos` is the item enqueued at position `pos`, no
item is returned twice), and the accepted items not yet dequeued are exactly
the pending ones (no item is lost). -/
theorem C1_mpsc_bounded_fifo {T : Type} (k : Nat) (hk : 1 ≤ k) (d : T)
    (ops : List (Op T)) :
    ∃ sf lf acc outs,
      runC (init (2 ^ k) d) ops = some (sf, acc, outs) ∧
      runA (2 ^ k) [] ops = (lf, acc, outs) ∧
      acc = outs ++ lf ∧
      outs = acc.take outs.length := by
  obtain ⟨sf, lf, acc, outs, h1, h2, _, happ, _, _, _⟩ :=
    runC_refines ops (init (2 ^ k) d) [] (Inv.init k hk d)
  simp only [List.nil_append] at happ
  refine ⟨sf, lf, acc, outs, h1, h2, happ, ?_⟩
  rw [happ]
  exact (List.take_left outs lf).symm

/-- Witness for C1 at capacity 2 with a concrete operation sequence. -/
theorem C1_mpsc_bounded_fifo_witness :
    1 ≤ 1 ∧
    ∃ sf lf acc outs,
      runC (init (2 ^ 1) (0 : Nat))
          [Op.enq 7, Op.enq 8, Op.enq 9, Op.deq, Op.deq, Op.deq] =
        some (sf, acc, outs) ∧
      runA (2 ^ 1) []
          [Op.enq 7, Op.enq 8, Op.enq 9, Op.deq, Op.deq, Op.deq] =
        (lf, acc, outs) ∧
      acc = outs ++ lf ∧
      outs = acc.take outs.length :=
  ⟨Nat.le_refl 1, C1_mpsc_bounded_fifo 1 (Nat.le_refl 1) 0
    [Op.enq 7, Op.enq 8, Op.enq 9, Op.deq, Op.deq, Op.deq]⟩

/-- C1 counterexample to the claim as stated: capacity 1 is a power of two,
yet the ring is not a bounded FIFO there.  After two enqueues (both accepted
by the code, while a capacity-1 FIFO must reject the second) a dequeue
returns nothing even though accepted items are pending: the code yields
accepted sequence `[1, 2]` and dequeued sequence `[]`, whereas the bounded
FIFO yields `[1]` and `[1]`. -/
theorem C1_capacity_one_counterexample :
    (runC (init 1 (0 : Nat)) [Op.enq 1, Op.enq 2, Op.deq]).map
        (fun r => (r.2.1, r.2.2)) = some ([1, 2], ([] : List Nat)) ∧
    runA 1 ([] : List Nat) [Op.enq 1, Op.enq 2, Op.deq] = ([], [1], [1]) ∧
    (([1, 2], ([] : List Nat)) ≠ ([1], [1])) := by
  refine ⟨by rfl, by rfl, by decide⟩

/-- C2, amended to capacities 2^k with k ≥ 1: starting from a freshly
constructed ring, every reachable state satisfies `head ≤ tail ≤ head + C`;
the final tail equals the number of successful enqueues and the final head
the number of successful dequeues, so their difference lies in `[0, C]`.
Moreover (unconditionally, at any state and any capacity) a successful
enqueue increments `tail` by exactly one and leaves `head` unchanged, a
failed enqueue changes nothing, a successful dequeue increments `head` by
exactly one and leaves `tail` unchanged, and a failed dequeue changes
nothing. -/
theorem C2_cursor_bounds {T : Type} (k : Nat) (hk : 1 ≤ k) (d : T)
    (ops : List (Op T)) :
    (∃ sf acc outs,
        runC (init (2 ^ k) d) ops = some (sf, acc, outs) ∧
        sf.head ≤ sf.tail ∧ sf.tail ≤ sf.head + 2 ^ k ∧
        sf.tail = acc.length ∧ sf.head = outs.length ∧
        outs.length ≤ acc.length ∧ acc.length - outs.length ≤ 2 ^ k) ∧
    (∀ (s : MState T) (x : T) (b : Bool) (s1 : MState T),
        enqueue s x = some (b, s1) →
        (b = true → s1.tail = s.tail + 1 ∧ s1.head = s.head) ∧
        (b = false → s1 = s)) ∧
    (∀ (s : MState T) (r : Option T × MState T), dequeue s = r →
        ((∃ y, r.1 = some y) → r.2.head = s.head + 1 ∧ r.2.tail = s.tail) ∧
        (r.1 = none → r.2 = s)) := by
  refine ⟨?_, ?_, ?_⟩
  · obtain ⟨sf, lf, acc, outs, h1, _, hinvf, happ, _, htailf, hheadf⟩ :=
      runC_refines ops (init (2 ^ k) d) [] (Inv.init k hk d)
    simp only [List.nil_append] at happ
    simp only [eventbus.init] at htailf hheadf
    obtain ⟨hcapf, _, htl, hlen, _⟩ := hinvf
    have hlacc : acc.length = outs.length + lf.length := by
      rw [happ, List.length_append]
    refine ⟨sf, acc, outs, h1, by omega, ?_, by omega, by omega, by omega, ?_⟩
    · rw [← hcapf]
      omega
    · rw [← hcapf]
      omega
  · intro s x b s1 h
    simp only [enqueue] at h
    split at h
    · rw [Option.some.injEq, Prod.mk.injEq] at h
      refine ⟨fun _ => ?_, fun hb => ?_⟩
      · rw [← h.2]
        exact ⟨rfl, rfl⟩
      · rw [← h.1] at hb
        exact absurd hb (by simp)
    · split at h
      · rw [Option.some.injEq, Prod.mk.injEq] at h
        refine ⟨fun hb => ?_, fun _ => h.2.symm⟩
        rw [← h.1] at hb
        exact absurd hb (by simp)
      · exact absurd h (by simp)
  · intro s r h
    simp only [dequeue] at h
    split at h
    · refine ⟨fun hy => ?_, fun _ => by rw [← h]⟩
      obtain ⟨y, hy⟩ := hy
      rw [← h] at hy
      exact absurd hy (by simp)
    · refine ⟨fun _ => ?_, fun hn => ?_⟩
      · rw [← h]
        exact ⟨rfl, rfl⟩
      · rw [← h] at hn
        exact absurd hn (by simp)

/-- Witness for C2 at capacity 2 with a concrete operation sequence. -/
theorem C2_cursor_bounds_witness :
    1 ≤ 1 ∧
    ((∃ sf acc outs,
        runC (init (2 ^ 1) (0 : Nat)) [Op.enq 5, Op.deq, Op.enq 6] =
          some (sf, acc, outs) ∧
        sf.head ≤ sf.tail ∧ sf.tail ≤ sf.head + 2 ^ 1 ∧
        sf.tail = acc.length ∧ sf.head = outs.length ∧
        outs.length ≤ acc.length ∧ acc.length - outs.length ≤ 2 ^ 1) ∧
    (∀ (s : MState Nat) (x : Nat) (b : Bool) (s1 : MState Nat),
        enqueue s x = some (b, s1) →
        (b = true → s1.tail = s.tail + 1 ∧ s1.head = s.head) ∧
        (b = false → s1 = s)) ∧
    (∀ (s : MState Nat) (r : Option Nat × MState Nat), dequeue s = r →
        ((∃ y, r.1 = some y) → r.2.head = s.head + 1 ∧ r.2.tail = s.tail) ∧
        (r.1 = none → r.2 = s))) :=
  ⟨Nat.le_refl 1, C2_cursor_bounds 1 (Nat.le_refl 1) 0 [Op.enq 5, Op.deq, Op.enq 6]⟩

/-- C2 counterexample to the claim as stated: at capacity 1 (a power of two)
two enqueues both succeed, reaching a state with `tail = 2`, `head = 0`, so
`tail - head = 2` exceeds the capacity 1. -/
theorem C2_capacity_one_counterexample :
    (runC (init 1 (0 : Nat)) [Op.enq 1, Op.enq 2]).map
        (fun r => (r.1.tail, r.1.head, r.1.capacity)) = some (2, 0, 1) ∧
    ¬ ((2 : Nat) - 0 ≤ 1) := by
  refine ⟨by rfl, by decide⟩

/-- One execution of the inner `while (taken < events_to_take)` loop of
`Consumer::poll_batch` from `src/src/consumer.cpp`: dequeue up to `n` items
from one queue, stopping early as soon as the queue reports empty (the
failing dequeue leaves the queue unchanged). -/
def takeFromQueue {T : Type} (q : MState T) : Nat → List T × MState T
  | 0 => ([], q)
  | n + 1 =>
      match dequeue q with
      | (none, q1) => ([], q1)
      | (some e, q1) =>
          let rest := takeFromQueue q1 n
          (e :: rest.1, rest.2)

/-- The per-queue `for` loop of `Consumer::poll_batch`: each queue in order
is granted `events_per_queue` dequeues plus one bonus while `remainder > 0`,
and `remainder` is decremented as soon as the bonus is granted. -/
def pollLoop {T : Type} : List (MState T) → Nat → Nat → List T × List (MState T)
  | [], _, _ => ([], [])
  | q :: qs, events_per_queue, remainder =>
      let events_to_take := if 0 < remainder then events_per_queue + 1 else events_per_queue
      let remainder1 := if 0 < remainder then remainder - 1 else remainder
      let t := takeFromQueue q events_to_take
      let rest := pollLoop qs events_per_queue remainder1
      (t.1 ++ rest.1, t.2 :: rest.2)

/-- `Consumer::poll_batch` from `src/src/consumer.cpp` (value type `T`
standing for `Event`): returns `{}` when the consumer holds no queues or
`max_events == 0`; otherwise drains with
`events_per_queue = max_events / num_queues` and
`remainder = max_events % num_queues`. -/
def poll_batch {T : Type} (queues : List (MState T)) (max_events : Nat) :
    List T × List (MState T) :=
  if queues.isEmpty ∨ max_events = 0 then ([], queues)
  else pollLoop queues (max_events / queues.length) (max_events % queues.length)

/-- The fair drain expressed over the queues' pending-item lists, with the
remainder decremented whenever the bonus slot is granted to a queue, whether
or not the queue had an event for it (this is what the code does). -/
def pollLoopLists {T : Type} : List (List T) → Nat → Nat → List T
  | [], _, _ => []
  | l :: ls, base, rem =>
      (l.take (if 0 < rem then base + 1 else base)) ++
        pollLoopLists ls base (if 0 < rem then rem - 1 else rem)

/-- Modelled from the spec: the fair-drain algorithm of §4.6 with the
remainder decremented only when the bonus slot is actually consumed, i.e.
only when the queue that was granted `base + 1` dequeues actually yielded
`base + 1` events. -/
def pollLoopSpecConsume {T : Type} : List (List T) → Nat → Nat → List T
  | [], _, _ => []
  | l :: ls, base, rem =>
      if 0 < rem then
        (l.take (base + 1)) ++
          pollLoopSpecConsume ls base
            (if (l.take (base + 1)).length = base + 1 then rem - 1 else rem)
      else
        (l.take base) ++ pollLoopSpecConsume ls base rem

lemma takeFromQueue_spec {T : Type} {k : Nat} :
    ∀ (n : Nat) (q : MState T) (l : List T), Inv k q l →
    ∃ q1, takeFromQueue q n = (l.take n, q1) ∧ Inv k q1 (l.drop n) := by
  intro n
  induction n with
  | zero =>
      intro q l hinv
      exact ⟨q, rfl, by simpa using hinv⟩
  | succ n ihn =>
      intro q l hinv
      cases l with
      | nil =>
          have hdeq := dequeue_empty hinv
          refine ⟨q, ?_, by simpa using hinv⟩
          simp [takeFromQueue, hdeq]
      | cons x xs =>
          obtain ⟨q1, hdeq, hinv1, _, _, _⟩ := dequeue_ok hinv
          obtain ⟨q2, hrec, hinv2⟩ := ihn q1 xs hinv1
          refine ⟨q2, ?_, by simpa using hinv2⟩
          simp [takeFromQueue, hdeq, hrec]

lemma pollLoop_spec {T : Type} {k : Nat} {qs : List (MState T)} {ls : List (List T)}
    (hrel : List.Forall₂ (Inv k) qs ls) :
    ∀ base rem, (pollLoop qs base rem).1 = pollLoopLists ls base rem := by
  induction hrel with
  | nil => intro base rem; rfl
  | cons hql hrest ih =>
      intro base rem
      obtain ⟨q1, htake, _⟩ :=
        takeFromQueue_spec (if 0 < rem then base + 1 else base) _ _ hql
      simp [pollLoop, pollLoopLists, htake, ih]

/-- C3, amended in one point: the code decrements the remainder as soon as
the bonus slot is granted to a queue, not only when the bonus is actually
consumed.  With that amendment: for queues whose pending contents are the
lists `ls`, `poll_batch(max_events)` returns the empty list when there are
no queues or `max_events = 0`, and otherwise visits the queues in order,
taking from each queue a prefix of its pending items of length at most
`base = max_events / Q` plus a bonus of 1 while the remainder
`max_events % Q` is not exhausted, stopping a queue early when it is empty,
and concatenating the per-queue results in queue order (so per-queue
dequeue order is preserved). -/
theorem C3_poll_batch_fair_drain {T : Type} (k : Nat) (qs : List (MState T))
    (ls : List (List T)) (hrel : List.Forall₂ (Inv k) qs ls) (max_events : Nat) :
    (qs = [] ∨ max_events = 0 → (poll_batch qs max_events).1 = []) ∧
    (qs ≠ [] → max_events ≠ 0 →
      (poll_batch qs max_events).1 =
        pollLoopLists ls (max_events / qs.length) (max_events % qs.length)) := by
  constructor
  · intro h
    rcases h with h | h
    · subst h
      cases hrel
      rfl
    · simp [poll_batch, h]
  · intro hq hm
    have hne : ¬ (qs.isEmpty ∨ max_events = 0) := by
      cases qs with
      | nil => exact absurd rfl hq
      | cons a as => simp [hm]
    simp only [poll_batch, if_neg hne]
    exact pollLoop_spec hrel _ _

/-- Witness for C3 on a consumer with one fresh capacity-2 queue and
`max_events = 3`. -/
theorem C3_poll_batch_fair_drain_witness :
    List.Forall₂ (Inv 1) [init 2 (0 : Nat)] [([] : List Nat)] ∧
    ((([init 2 (0 : Nat)] : List (MState Nat)) = [] ∨ (3 : Nat) = 0 →
        (poll_batch [init 2 (0 : Nat)] 3).1 = []) ∧
    (([init 2 (0 : Nat)] : List (MState Nat)) ≠ [] → (3 : Nat) ≠ 0 →
        (poll_batch [init 2 (0 : Nat)] 3).1 =
          pollLoopLists [([] : List Nat)] (3 / 1) (3 % 1))) :=
  ⟨List.Forall₂.cons (Inv.init 1 (Nat.le_refl 1) 0) List.Forall₂.nil,
   C3_poll_batch_fair_drain 1 [init 2 0] [[]]
     (List.Forall₂.cons (Inv.init 1 (Nat.le_refl 1) 0) List.Forall₂.nil) 3⟩

/-- C3 counterexample to the claim as stated: a consumer holds two
capacity-4 queues, the first empty, the second loaded with 10, 11, 12; on
`poll_batch(3)` the code grants the bonus slot to the empty first queue and
decrements the remainder although no event is consumed there, returning only
`[10]`, whereas the algorithm that decrements the remainder only when the
bonus is consumed returns `[10, 11]`. -/
theorem C3_poll_batch_counterexample :
    (runC (init 4 (0 : Nat)) [Op.enq 10, Op.enq 11, Op.enq 12]).map
        (fun r => (poll_batch [init 4 (0 : Nat), r.1] 3).1) = some [10] ∧
    pollLoopSpecConsume [([] : List Nat), [10, 11, 12]] (3 / 2) (3 % 2) = [10, 11] ∧
    some [10] ≠ some [10, 11] := by
  refine ⟨by rfl, by rfl, by decide⟩

/-- `Event` from `src/lib/core/event.hpp`: topic, payload, a mutable `id`
stamped by the bus at publish time, and a steady-clock timestamp (an opaque
instant, modelled as a `Nat`). -/
structure Event where
  topic : String
  payload : String
  id : Nat
  timestamp : Nat
deriving DecidableEq

/-- A default-constructed `Event () = default`. -/
def defaultEvent : Event :=
  { topic := "", payload := "", id := 0, timestamp := 0 }

/-- `ConsumerGroup` state as used by `src/src/consumer_group.cpp` (the
matching header of this iteration is not in the snapshot; fields are read
off their uses in the .cpp).  `assigned_consumers` is the size of the
`assigned_consumers_` vector.  `queue_assignments_by_consumer_index` maps a
consumer index to the indices into `partition_queues` of its assigned rings:
the C++ map stores shared pointers to the very queues `partition_queues_`
holds, created in the same loop iteration, so ring indices identify them;
an absent map entry is modelled as the empty list, matching a consumer that
never gets `receive_queues` called and keeps its default empty vector. -/
structure ConsumerGroup where
  group_id : String
  topic_partition_count : Nat
  assigned_consumers : Nat
  partition_queues : List (MState Event)
  queue_assignments_by_consumer_index : Nat → List Nat
  finalized_consumer_group : Bool

/-- `ConsumerGroup::register_consumer` from `src/src/consumer_group.cpp`:
unconditionally appends the consumer and returns `"<group_id>/<index>"`
where `index` is the number of consumers registered before it.  The function
performs no state check and cannot fail. -/
def register_consumer (g : ConsumerGroup) : String × ConsumerGroup :=
  (g.group_id ++ "/" ++ toString g.assigned_consumers,
   { g with assigned_consumers := g.assigned_consumers + 1 })

/-- `ConsumerGroup::create_partition_assignments_among_consumers_` from
`src/src/consumer_group.cpp`: throws if the group is already finalized, then
throws if no consumer is registered; otherwise creates one ring of the
hard-coded capacity 8192 per partition, pushes ring `i` onto the assignment
list of consumer `i % K` (in increasing `i`), hands each consumer its list
and marks the group finalized. -/
def create_partition_assignments_among_consumers (g : ConsumerGroup) :
    Except String ConsumerGroup :=
  if g.finalized_consumer_group then
    Except.error "Cannot register after setup is done"
  else if g.assigned_consumers = 0 then
    Except.error ("No consumers registered for - " ++ g.group_id)
  else
    Except.ok { g with
      partition_queues :=
        (List.range g.topic_partition_count).map (fun _ => init 8192 defaultEvent),
      queue_assignments_by_consumer_index :=
        fun c => (List.range g.topic_partition_count).filter
          (fun j => j % g.assigned_consumers = c),
      finalized_consumer_group := true }

/-- A concrete group with one registered consumer, still building. -/
def gBuilding : ConsumerGroup :=
  { group_id := "g", topic_partition_count := 2, assigned_consumers := 1,
    partition_queues := [], queue_assignments_by_consumer_index := fun _ => [],
    finalized_consumer_group := false }

/-- The result of finalizing `gBuilding`. -/
def gFinalized : ConsumerGroup :=
  match create_partition_assignments_among_consumers gBuilding with
  | Except.ok g => g
  | Except.error _ => gBuilding

/-- C5 counterexample to the claim as stated: finalizing `gBuilding` yields a
group in the FINALIZED state, and calling `register_consumer` on it does not
fail — it returns the identifier `"g/1"` and appends the consumer (the count
grows from 1 to 2).  The source function has no failure path at all. -/
theorem C5_register_after_finalize_counterexample :
    gFinalized.finalized_consumer_group = true ∧
    create_partition_assignments_among_consumers gBuilding = Except.ok gFinalized ∧
    (register_consumer gFinalized).1 = "g/1" ∧
    (register_consumer gFinalized).2.assigned_consumers = 2 := by
  refine ⟨by rfl, by rfl, by decide, by rfl⟩

/-- C5, amended: `register_consumer` never fails: in every state, including
after finalization, it appends the consumer and returns `"<group_id>/<i>"`
with `i` the number of previously registered consumers, without touching the
finalized flag.  Only finalization enforces the state machine: it fails
exactly when the group is already finalized or has zero registered
consumers, and on success it marks the group finalized. -/
theorem C5_register_and_finalize (g : ConsumerGroup) :
    ((register_consumer g).1 = g.group_id ++ "/" ++ toString g.assigned_consumers) ∧
    ((register_consumer g).2.assigned_consumers = g.assigned_consumers + 1) ∧
    ((register_consumer g).2.finalized_consumer_group = g.finalized_consumer_group) ∧
    ((∃ msg, create_partition_assignments_among_consumers g = Except.error msg) ↔
        (g.finalized_consumer_group = true ∨ g.assigned_consumers = 0)) ∧
    (∀ g1, create_partition_assignments_among_consumers g = Except.ok g1 →
        g1.finalized_consumer_group = true ∧ g.finalized_consumer_group = false ∧
        g.assigned_consumers ≠ 0) := by
  refine ⟨rfl, rfl, rfl, ?_, ?_⟩
  · constructor
    · rintro ⟨msg, hmsg⟩
      by_contra hc
      push_neg at hc
      have hf : g.finalized_consumer_group = false := by
        cases hcase : g.finalized_consumer_group
        · rfl
        · exact absurd hcase hc.1
      rw [create_partition_assignments_among_consumers, hf] at hmsg
      simp [hc.2] at hmsg
    · intro hor
      rcases hor with hf | hz
      · exact ⟨_, by rw [create_partition_assignments_among_consumers, hf]; rfl⟩
      · cases hcase : g.finalized_consumer_group
        · exact ⟨_, by rw [create_partition_assignments_among_consumers, hcase, hz]; rfl⟩
        · exact ⟨_, by rw [create_partition_assignments_among_consumers, hcase]; rfl⟩
  · intro g1 h
    rw [create_partition_assignments_among_consumers] at h
    split at h
    · exact absurd h (by simp)
    · split at h
      · exact absurd h (by simp)
      · rw [Except.ok.injEq] at h
        subst h
        refine ⟨rfl, ?_, by assumption⟩
        cases hcase : g.finalized_consumer_group
        · rfl
        · exact absurd hcase (by assumption)

/-- Witness for C5 at the concrete group `gBuilding`. -/
theorem C5_register_and_finalize_witness :
    ((register_consumer gBuilding).1 =
        gBuilding.group_id ++ "/" ++ toString gBuilding.assigned_consumers) ∧
    ((register_consumer gBuilding).2.assigned_consumers =
        gBuilding.assigned_consumers + 1) ∧
    ((register_consumer gBuilding).2.finalized_consumer_group =
        gBuilding.finalized_consumer_group) ∧
    ((∃ msg, create_partition_assignments_among_consumers gBuilding =
        Except.error msg) ↔
      (gBuilding.finalized_consumer_group = true ∨
        gBuilding.assigned_consumers = 0)) ∧
    (∀ g1, create_partition_assignments_among_consumers gBuilding = Except.ok g1 →
        g1.finalized_consumer_group = true ∧
        gBuilding.finalized_consumer_group = false ∧
        gBuilding.assigned_consumers ≠ 0) :=
  C5_register_and_finalize gBuilding

/-- C6 counterexample to the claim as stated: the ring constructor accepts
the capacity 3 — not a power of two — unchanged: it has no failure path, so
the value is neither rejected nor rounded up to 4. -/
theorem C6_capacity_counterexample :
    (init 3 (0 : Nat)).capacity = 3 ∧ (¬ ∃ k : Nat, (3 : Nat) = 2 ^ k) := by
  refine ⟨rfl, ?_⟩
  rintro ⟨k, hk⟩
  rcases k with _ | _ | n
  · simp at hk
  · simp at hk
  · have h4 : 4 ≤ 2 ^ (n + 2) := by
      calc (4 : Nat) = 2 ^ 2 := rfl
      _ ≤ 2 ^ (n + 2) := Nat.pow_le_pow_right (by norm_num) (by omega)
    omega

/-- C6, amended: the ring constructor performs no validation — any supplied
capacity is stored unchanged, so a non-power-of-two capacity is neither
rejected nor rounded up — but the only capacity the repository ever supplies
to it is the hard-coded per-partition constant 8192 of
`create_partition_assignments_among_consumers_`, which is a power of two and
at least 4096. -/
theorem C6_capacity_sizing {T : Type} (c : Nat) (d : T) (g g1 : ConsumerGroup)
    (h : create_partition_assignments_among_consumers g = Except.ok g1) :
    (init c d).capacity = c ∧
    (∀ q ∈ g1.partition_queues, q.capacity = 8192) ∧
    (8192 : Nat) = 2 ^ 13 ∧ (4096 : Nat) ≤ 8192 := by
  refine ⟨rfl, ?_, by norm_num, by norm_num⟩
  rw [create_partition_assignments_among_consumers] at h
  split at h
  · exact absurd h (by simp)
  · split at h
    · exact absurd h (by simp)
    · rw [Except.ok.injEq] at h
      subst h
      intro q hq
      simp only [List.mem_map] at hq
      obtain ⟨j, _, hj⟩ := hq
      rw [← hj]
      rfl

/-- Witness for C6 on the concrete group `gBuilding`. -/
theorem C6_capacity_sizing_witness :
    create_partition_assignments_among_consumers gBuilding = Except.ok gFinalized ∧
    ((init 7 (0 : Nat)).capacity = 7 ∧
     (∀ q ∈ gFinalized.partition_queues, q.capacity = 8192) ∧
     (8192 : Nat) = 2 ^ 13 ∧ (4096 : Nat) ≤ 8192) :=
  ⟨by rfl, C6_capacity_sizing 7 0 gBuilding gFinalized (by rfl)⟩

lemma filter_mod_length {K i : Nat} (hK : 0 < K) (hi : i < K) (P : Nat) :
    ((List.range P).filter (fun j => j % K = i)).length =
      P / K + (if i < P % K then 1 else 0) := by
  induction P with
  | zero => simp
  | succ P ih =>
      rw [List.range_succ, List.filter_append, List.length_append, ih]
      have hmP : P % K < K := Nat.mod_lt _ hK
      rcases Nat.lt_or_ge (P % K) (K - 1) with hlt | hge
      · have h1 : P + 1 = K * (P / K) + (P % K + 1) := by
          have := Nat.div_add_mod P K
          omega
        have hdiv : (P + 1) / K = P / K := by
          rw [h1, Nat.mul_add_div hK,
            Nat.div_eq_of_lt (show P % K + 1 < K by omega), Nat.add_zero]
        have hmod : (P + 1) % K = P % K + 1 := by
          rw [h1, Nat.mul_add_mod, Nat.mod_eq_of_lt (by omega)]
        rw [hdiv, hmod]
        by_cases hPi : P % K = i
        · have hone : (List.filter (fun j => decide (j % K = i)) [P]).length = 1 := by
            simp [List.filter_singleton, hPi]
          rw [hone]
          rw [if_neg (by omega), if_pos (by omega)]
        · have hzero : (List.filter (fun j => decide (j % K = i)) [P]).length = 0 := by
            simp [List.filter_singleton, hPi]
          rw [hzero]
          by_cases hc : i < P % K
          · rw [if_pos hc, if_pos (by omega)]
          · rw [if_neg hc, if_neg (by omega)]
      · have hPK : P % K = K - 1 := by omega
        have h1 : P + 1 = K * (P / K + 1) := by
          have h2 := Nat.div_add_mod P K
          have h3 : K * (P / K + 1) = K * (P / K) + K := by ring
          omega
        have hdiv : (P + 1) / K = P / K + 1 := by
          rw [h1, Nat.mul_div_cancel_left _ hK]
        have hmod : (P + 1) % K = 0 := by
          rw [h1]
          exact Nat.mul_mod_right K _
        rw [hdiv, hmod]
        by_cases hPi : P % K = i
        · have hone : (List.filter (fun j => decide (j % K = i)) [P]).length = 1 := by
            simp [List.filter_singleton, hPi]
          rw [hone]
          rw [if_neg (by omega), if_neg (by omega)]
        · have hzero : (List.filter (fun j => decide (j % K = i)) [P]).length = 0 := by
            simp [List.filter_singleton, hPi]
          rw [hzero]
          rw [if_pos (by omega), if_neg (by omega)]

/-- C8: a successful finalization of a group with `P = topic_partition_count`
partitions and `K = assigned_consumers` registered consumers creates exactly
`P` rings and assigns ring `j` to consumer `j mod K`; consumer `i` receives
exactly the ring indices `{ j < P | j mod K = i }`, these sets are pairwise
disjoint and cover all `P` rings, each consumer `i < K` receives `⌊P/K⌋` or
`⌊P/K⌋ + 1` rings, and when `K > P` every consumer index in `[P, K)` (indeed
every index `≥ P`) receives the empty list — not an error. -/
theorem C8_partition_assignment (g g1 : ConsumerGroup)
    (h : create_partition_assignments_among_consumers g = Except.ok g1) :
    g1.partition_queues.length = g.topic_partition_count ∧
    (∀ i j : Nat, j ∈ g1.queue_assignments_by_consumer_index i ↔
        (j < g.topic_partition_count ∧ j % g.assigned_consumers = i)) ∧
    (∀ j, j < g.topic_partition_count →
        j ∈ g1.queue_assignments_by_consumer_index (j % g.assigned_consumers)) ∧
    (∀ i i1, i ≠ i1 → ∀ j, j ∈ g1.queue_assignments_by_consumer_index i →
        j ∉ g1.queue_assignments_by_consumer_index i1) ∧
    (∀ i, i < g.assigned_consumers →
        (g1.queue_assignments_by_consumer_index i).length =
          g.topic_partition_count / g.assigned_consumers ∨
        (g1.queue_assignments_by_consumer_index i).length =
          g.topic_partition_count / g.assigned_consumers + 1) ∧
    (g.assigned_consumers > g.topic_partition_count →
        ∀ i, g.topic_partition_count ≤ i →
          g1.queue_assignments_by_consumer_index i = []) := by
  rw [create_partition_assignments_among_consumers] at h
  split at h
  · exact absurd h (by simp)
  · split at h
    · exact absurd h (by simp)
    · have hK : 0 < g.assigned_consumers := by omega
      rw [Except.ok.injEq] at h
      subst h
      have hmem : ∀ i j : Nat,
          (j ∈ (List.range g.topic_partition_count).filter
            (fun j => j % g.assigned_consumers = i)) ↔
          (j < g.topic_partition_count ∧ j % g.assigned_consumers = i) := by
        intro i j
        simp [List.mem_filter, List.mem_range]
      refine ⟨by simp, hmem, ?_, ?_, ?_, ?_⟩
      · intro j hj
        exact (hmem _ j).2 ⟨hj, rfl⟩
      · intro i i1 hne j hj hj1
        have h1 := ((hmem i j).1 hj).2
        have h2 := ((hmem i1 j).1 hj1).2
        exact hne (h1 ▸ h2 ▸ rfl)
      · intro i hi
        have := filter_mod_length hK hi g.topic_partition_count
        by_cases hc : i < g.topic_partition_count % g.assigned_consumers
        · right
          rw [if_pos hc] at this
          exact this
        · left
          rw [if_neg hc, Nat.add_zero] at this
          exact this
      · intro hKP i hiP
        rw [List.filter_eq_nil_iff]
        intro j hj
        rw [List.mem_range] at hj
        simp only [decide_eq_true_eq]
        rw [Nat.mod_eq_of_lt (by omega)]
        omega

/-- Witness for C8: finalizing the two-partition, one-consumer group
`gBuilding` assigns both rings to consumer 0 and none to any other index. -/
theorem C8_partition_assignment_witness :
    create_partition_assignments_among_consumers gBuilding = Except.ok gFinalized ∧
    (gFinalized.partition_queues.length = gBuilding.topic_partition_count ∧
    (∀ i j : Nat, j ∈ gFinalized.queue_assignments_by_consumer_index i ↔
        (j < gBuilding.topic_partition_count ∧
          j % gBuilding.assigned_consumers = i)) ∧
    (∀ j, j < gBuilding.topic_partition_count →
        j ∈ gFinalized.queue_assignments_by_consumer_index
          (j % gBuilding.assigned_consumers)) ∧
    (∀ i i1, i ≠ i1 → ∀ j, j ∈ gFinalized.queue_assignments_by_consumer_index i →
        j ∉ gFinalized.queue_assignments_by_consumer_index i1) ∧
    (∀ i, i < gBuilding.assigned_consumers →
        (gFinalized.queue_assignments_by_consumer_index i).length =
          gBuilding.topic_partition_count / gBuilding.assigned_consumers ∨
        (gFinalized.queue_assignments_by_consumer_index i).length =
          gBuilding.topic_partition_count / gBuilding.assigned_consumers + 1) ∧
    (gBuilding.assigned_consumers > gBuilding.topic_partition_count →
        ∀ i, gBuilding.topic_partition_count ≤ i →
          gFinalized.queue_assignments_by_consumer_index i = [])) :=
  ⟨by rfl, C8_partition_assignment gBuilding gFinalized (by rfl)⟩

/-- `EventBus::get_partition_index` from `src/lib/eventbus/event_bus.hpp`:
with an empty key the index is `event_id % partition_count` (round robin),
otherwise `std::hash<std::string>{}(partition_key) % partition_count`
(key-based hashing).  `std::hash` is deterministic within a process and is
modelled as an arbitrary function `hash`. -/
def get_partition_index (hash : String → Nat) (event_id : Nat)
    (partition_count : Nat) (partition_key : String) : Nat :=
  if partition_key = "" then event_id % partition_count
  else hash partition_key % partition_count

/-- C7: with an empty partition key the dispatcher computes
`event_id mod P`, with a non-empty key `hash(partition_key) mod P`;
consequently two events published with the same non-empty key to the same
topic get the same partition index regardless of their ids. -/
theorem C7_partition_index (hash : String → Nat) (P : Nat) :
    (∀ event_id, get_partition_index hash event_id P "" = event_id % P) ∧
    (∀ event_id key, key ≠ "" →
        get_partition_index hash event_id P key = hash key % P) ∧
    (∀ id1 id2 key, key ≠ "" →
        get_partition_index hash id1 P key = get_partition_index hash id2 P key) := by
  refine ⟨fun e => rfl, fun e key hk => ?_, fun id1 id2 key hk => ?_⟩
  · rw [get_partition_index, if_neg hk]
  · rw [get_partition_index, get_partition_index, if_neg hk, if_neg hk]

/-- Witness for C7 with the concrete hash `String.length`, `P = 4` and the
key `"k"`. -/
theorem C7_partition_index_witness :
    ((∀ event_id, get_partition_index String.length event_id 4 "" = event_id % 4) ∧
    (∀ event_id key, key ≠ "" →
        get_partition_index String.length event_id 4 key = String.length key % 4) ∧
    (∀ id1 id2 key, key ≠ "" →
        get_partition_index String.length id1 4 key =
          get_partition_index String.length id2 4 key)) ∧
    get_partition_index String.length 3 4 "k" =
      get_partition_index String.length 7 4 "k" :=
  ⟨C7_partition_index String.length 4,
   (C7_partition_index String.length 4).2.2 3 7 "k" (by decide)⟩

/-- `BackPressureHandler::try_enqueue_with_backpressure_strategy` from
`src/lib/eventbus/back_pressure_strategy.hpp` for the default `DROP_NEWEST`
strategy used by the default-constructed `BackPressureConfig`: a single
enqueue attempt, dropping the event when the queue is full.  The `BLOCK`,
`SPIN` and `YIELDING_SPIN` strategies retry based on wall-clock time and
sleep/yield, which is outside this sequential embedding. -/
def try_enqueue_with_backpressure_strategy (q : MState Event) (e : Event) :
    Option (Bool × MState Event) :=
  enqueue q e

/-- `ConsumerGroup::deliver_event_to_consumer_group` from
`src/src/consumer_group.cpp`: forwards the event to
`partition_queues_[partition_index]` through the back-pressure handler.
The C++ vector `operator[]` with an out-of-range index is undefined,
modelled as `none`; in a bus built by `create_consumer_group` the index is
always in range. -/
def deliver_event_to_consumer_group (g : ConsumerGroup) (e : Event)
    (partition_index : Nat) : Option (Bool × ConsumerGroup) :=
  match g.partition_queues[partition_index]? with
  | none => none
  | some q =>
      match try_enqueue_with_backpressure_strategy q e with
      | none => none
      | some (b, q1) =>
          some (b, { g with
            partition_queues := g.partition_queues.set partition_index q1 })

/-- The fan-out loop of `EventBus::publish_event`: deliver to every
subscribing group in order and conjoin the per-group results
(`all_succeeded = all_succeeded && success`; every delivery is attempted). -/
def deliverToGroups : List ConsumerGroup → Event → Nat →
    Option (Bool × List ConsumerGroup)
  | [], _, _ => some (true, [])
  | g :: gs, e, pidx =>
      match deliver_event_to_consumer_group g e pidx with
      | none => none
      | some (b, g1) =>
          match deliverToGroups gs e pidx with
          | none => none
          | some (bs, gs1) => some (b && bs, g1 :: gs1)

/-- `EventBus` state from `src/lib/eventbus/event_bus.hpp`.  The
`unordered_map`s are modelled as functions: `topics` maps a topic name to
its partition count (`none` = absent); `consumer_groups_by_topic_name`
yields the subscribing groups in insertion order, with the empty list
standing for an absent entry (the C++ map only ever holds non-empty
vectors, since an entry is created by the first `push_back`);
`message_id_by_topic_name` models the per-topic atomic counters with the
`operator[]` default of 0 for a topic not seen before. -/
structure Bus where
  topics : String → Option Nat
  consumer_groups_by_topic_name : String → List ConsumerGroup
  message_id_by_topic_name : String → Nat

/-- `EventBus::get_next_message_id_for_topic`: `fetch_add(1, relaxed)` on
the topic's counter, returning the pre-increment value. -/
def get_next_message_id_for_topic (b : Bus) (topic_name : String) : Nat × Bus :=
  (b.message_id_by_topic_name topic_name,
   { b with message_id_by_topic_name := fun t =>
      if t = topic_name then b.message_id_by_topic_name topic_name + 1
      else b.message_id_by_topic_name t })

/-- `EventBus::publish_event` from `src/lib/eventbus/event_bus.hpp`:
throws if the topic does not exist; returns `false` (dropping the message,
with nothing else done) if no consumer group subscribes to the topic;
otherwise stamps `event.id` from the per-topic counter, computes the
partition index and fans out to every subscribing group, returning the
conjunction of the per-group outcomes.  The stamped event is returned as
the third component (the C++ code writes through the `mutable id`). -/
def publish_event (hash : String → Nat) (b : Bus) (e : Event)
    (partition_key : String) : Option (Except String (Bool × Bus × Event)) :=
  match b.topics e.topic with
  | none => some (Except.error "Topic does not exist to publish.")
  | some partition_count =>
      match b.consumer_groups_by_topic_name e.topic with
      | [] => some (Except.ok (false, b, e))
      | g :: gs =>
          let r := get_next_message_id_for_topic b e.topic
          let e1 := { e with id := r.1 }
          let pidx := get_partition_index hash r.1 partition_count partition_key
          match deliverToGroups (g :: gs) e1 pidx with
          | none => none
          | some (ok, gs1) =>
              some (Except.ok (ok,
                { r.2 with consumer_groups_by_topic_name := fun t =>
                    if t = e.topic then gs1
                    else r.2.consumer_groups_by_topic_name t },
                e1))

/-- Well-formedness of a bus: every subscribing group belongs to an
existing topic with at least one partition, holds one ring per partition,
and each ring is coupled to some pending list at capacity `2 ^ k`. -/
def BusWF (k : Nat) (b : Bus) : Prop :=
  ∀ t, ∀ g ∈ b.consumer_groups_by_topic_name t,
    ∃ pc, b.topics t = some pc ∧ 1 ≤ pc ∧
      g.partition_queues.length = pc ∧
      ∀ q ∈ g.partition_queues, ∃ l, Inv k q l

lemma get_partition_index_lt (hash : String → Nat) (event_id pc : Nat)
    (key : String) (hpc : 0 < pc) : get_partition_index hash event_id pc key < pc := by
  rw [get_partition_index]
  split
  · exact Nat.mod_lt _ hpc
  · exact Nat.mod_lt _ hpc

lemma deliver_spec {k : Nat} (g : ConsumerGroup) (e : Event) (pidx : Nat)
    (hlen : pidx < g.partition_queues.length)
    (hq : ∀ q ∈ g.partition_queues, ∃ l, Inv k q l) :
    ∃ res g1, deliver_event_to_consumer_group g e pidx = some (res, g1) ∧
      g1.partition_queues.length = g.partition_queues.length ∧
      (∀ q ∈ g1.partition_queues, ∃ l, Inv k q l) ∧
      (res = true ↔ ∀ q, g.partition_queues[pidx]? = some q →
          q.tail - q.head < q.capacity) := by
  have hget : g.partition_queues[pidx]? = some g.partition_queues[pidx] :=
    List.getElem?_eq_getElem hlen
  set q := g.partition_queues[pidx] with hqdef
  obtain ⟨l, hinv⟩ := hq q (List.getElem?_mem hget)
  have hlenq : l.length = q.tail - q.head := by
    obtain ⟨_, _, ht, _, _⟩ := hinv
    omega
  rcases Nat.lt_or_ge l.length q.capacity with hflt | hfge
  · obtain ⟨q1, henq, hinv1, _, _, _⟩ := enqueue_ok hinv hflt e
    refine ⟨true, { g with partition_queues := g.partition_queues.set pidx q1 },
      ?_, ?_, ?_, ?_⟩
    · simp only [deliver_event_to_consumer_group, hget,
        try_enqueue_with_backpressure_strategy, henq]
    · exact List.length_set _ _ _
    · intro q2 hq2
      rcases List.mem_or_eq_of_mem_set hq2 with hmem | heqq
      · exact hq q2 hmem
      · exact heqq ▸ ⟨l ++ [e], hinv1⟩
    · constructor
      · intro _ q2 hq2
        rw [hget, Option.some.injEq] at hq2
        subst hq2
        have hcap := hinv.1
        omega
      · intro _; rfl
  · have hfull : l.length = q.capacity := Nat.le_antisymm hinv.2.2.2.1 hfge
    have henq := enqueue_full hinv hfull e
    refine ⟨false, { g with partition_queues := g.partition_queues.set pidx q },
      ?_, ?_, ?_, ?_⟩
    · simp only [deliver_event_to_consumer_group, hget,
        try_enqueue_with_backpressure_strategy, henq]
    · exact List.length_set _ _ _
    · intro q2 hq2
      rcases List.mem_or_eq_of_mem_set hq2 with hmem | heqq
      · exact hq q2 hmem
      · exact heqq ▸ ⟨l, hinv⟩
    · constructor
      · intro hfalse
        exact absurd hfalse (by simp)
      · intro hall
        have := hall q hget
        omega

lemma deliverToGroups_spec {k : Nat} (e : Event) (pidx : Nat) :
    ∀ gs : List ConsumerGroup,
    (∀ g ∈ gs, pidx < g.partition_queues.length ∧
        ∀ q ∈ g.partition_queues, ∃ l, Inv k q l) →
    ∃ ok gs1, deliverToGroups gs e pidx = some (ok, gs1) ∧
      (ok = true ↔ ∀ g ∈ gs, ∀ q, g.partition_queues[pidx]? = some q →
          q.tail - q.head < q.capacity) ∧
      List.Forall₂ (fun g g1 =>
        g1.partition_queues.length = g.partition_queues.length ∧
        ∀ q ∈ g1.partition_queues, ∃ l, Inv k q l) gs gs1 := by
  intro gs
  induction gs with
  | nil =>
      intro _
      exact ⟨true, [], rfl, by simp, List.Forall₂.nil⟩
  | cons g gs ihg =>
      intro hall
      obtain ⟨res, g1, hdel, hlen1, hinv1, hres⟩ :=
        deliver_spec g e pidx (hall g (by simp)).1 (hall g (by simp)).2
      obtain ⟨ok, gs1, hrec, hok, hfa⟩ :=
        ihg (fun g2 hg2 => hall g2 (List.mem_cons_of_mem g hg2))
      refine ⟨res && ok, g1 :: gs1, ?_, ?_, List.Forall₂.cons ⟨hlen1, hinv1⟩ hfa⟩
      · simp only [deliverToGroups, hdel, hrec]
      · rw [Bool.and_eq_true, hres, hok]
        constructor
        · rintro ⟨h1, h2⟩ g2 hg2
          rcases List.mem_cons.1 hg2 with heq | hmem
          · subst heq
            exact h1
          · exact h2 g2 hmem
        · intro hallq
          exact ⟨hallq g (by simp),
            fun g2 hg2 q hq => hallq g2 (List.mem_cons_of_mem g hg2) q hq⟩

lemma publish_spec (hash : String → Nat) {k : Nat} (b : Bus) (e : Event)
    (key : String) (hwf : BusWF k b) (pc : Nat)
    (hpc : b.topics e.topic = some pc)
    (hne : b.consumer_groups_by_topic_name e.topic ≠ []) :
    ∃ res gs1,
      publish_event hash b e key = some (Except.ok (res,
        { topics := b.topics,
          consumer_groups_by_topic_name := fun t =>
            if t = e.topic then gs1 else b.consumer_groups_by_topic_name t,
          message_id_by_topic_name := fun t =>
            if t = e.topic then b.message_id_by_topic_name e.topic + 1
            else b.message_id_by_topic_name t },
        { e with id := b.message_id_by_topic_name e.topic })) ∧
      (res = true ↔ ∀ g ∈ b.consumer_groups_by_topic_name e.topic, ∀ q,
          g.partition_queues[get_partition_index hash
            (b.message_id_by_topic_name e.topic) pc key]? = some q →
          q.tail - q.head < q.capacity) ∧
      List.Forall₂ (fun g g1 =>
        g1.partition_queues.length = g.partition_queues.length ∧
        ∀ q ∈ g1.partition_queues, ∃ l, Inv k q l)
        (b.consumer_groups_by_topic_name e.topic) gs1 := by
  set pidx := get_partition_index hash (b.message_id_by_topic_name e.topic) pc key
    with hpidx
  have hall : ∀ g2 ∈ b.consumer_groups_by_topic_name e.topic,
      pidx < g2.partition_queues.length ∧
      ∀ q ∈ g2.partition_queues, ∃ l, Inv k q l := by
    intro g2 hg2
    obtain ⟨pc2, hpc2, hpc2pos, hlen2, hinvs⟩ := hwf e.topic g2 hg2
    rw [hpc, Option.some.injEq] at hpc2
    subst hpc2
    refine ⟨?_, hinvs⟩
    rw [hlen2]
    exact get_partition_index_lt hash _ _ key (by omega)
  obtain ⟨ok, gs1, hdels, hok, hfa⟩ :=
    deliverToGroups_spec ({ e with id := b.message_id_by_topic_name e.topic }) pidx
      (b.consumer_groups_by_topic_name e.topic) hall
  refine ⟨ok, gs1, ?_, hok, hfa⟩
  match hgs : b.consumer_groups_by_topic_name e.topic with
  | [] => exact absurd hgs hne
  | g :: gs =>
      rw [hgs] at hdels
      simp only [publish_event, hpc, hgs, get_next_message_id_for_topic, hdels]

/-- C4: `publish_event` fails with the "topic does not exist" error when the
event's topic is not registered; returns `false` without an error (and
without touching anything) when the topic exists but no consumer group
subscribes to it; and otherwise returns the conjunction of the per-group
delivery outcomes — `true` iff every subscribing group's target ring
accepted the event under the (drop-newest) back-pressure policy, i.e. iff no
target ring was full. -/
theorem C4_publish_error_handling (hash : String → Nat) (k : Nat) (b : Bus)
    (e : Event) (key : String) (hwf : BusWF k b) :
    (b.topics e.topic = none →
        publish_event hash b e key =
          some (Except.error "Topic does not exist to publish.")) ∧
    (∀ pc, b.topics e.topic = some pc →
        b.consumer_groups_by_topic_name e.topic = [] →
        publish_event hash b e key = some (Except.ok (false, b, e))) ∧
    (∀ pc, b.topics e.topic = some pc →
        b.consumer_groups_by_topic_name e.topic ≠ [] →
        ∃ res b1 e1, publish_event hash b e key =
            some (Except.ok (res, b1, e1)) ∧
          (res = true ↔ ∀ g ∈ b.consumer_groups_by_topic_name e.topic, ∀ q,
              g.partition_queues[get_partition_index hash
                (b.message_id_by_topic_name e.topic) pc key]? = some q →
              q.tail - q.head < q.capacity)) := by
  refine ⟨?_, ?_, ?_⟩
  · intro h
    simp only [publish_event, h]
  · intro pc hpc hgs
    simp only [publish_event, hpc, hgs]
  · intro pc hpc hne
    obtain ⟨res, gs1, hpub, hres, _⟩ := publish_spec hash b e key hwf pc hpc hne
    exact ⟨res, _, _, hpub, hres⟩

/-- A finalized single-partition group holding one fresh capacity-2 ring. -/
def gNotif : ConsumerGroup :=
  { group_id := "cg", topic_partition_count := 1, assigned_consumers := 1,
    partition_queues := [init 2 defaultEvent],
    queue_assignments_by_consumer_index := fun _ => [],
    finalized_consumer_group := true }

/-- A concrete bus: topic "notifications" (1 partition, one subscribing
group `gNotif`) and topic "lonely" (1 partition, no subscribers). -/
def busEx : Bus :=
  { topics := fun t =>
      if t = "notifications" then some 1
      else if t = "lonely" then some 1 else none,
    consumer_groups_by_topic_name := fun t =>
      if t = "notifications" then [gNotif] else [],
    message_id_by_topic_name := fun _ => 0 }

lemma busEx_wf : BusWF 1 busEx := by
  intro t g hg
  by_cases ht : t = "notifications"
  · subst ht
    simp [busEx] at hg
    subst hg
    refine ⟨1, by simp [busEx], Nat.le_refl 1, rfl, ?_⟩
    intro q hq
    simp only [gNotif, List.mem_singleton] at hq
    subst hq
    exact ⟨[], Inv.init 1 (Nat.le_refl 1) defaultEvent⟩
  · simp only [busEx, if_neg ht] at hg
    exact absurd hg (List.not_mem_nil g)

/-- An event addressed to the subscribed topic. -/
def eNotif : Event :=
  { topic := "notifications", payload := "m0", id := 0, timestamp := 5 }

/-- Witness for C4 on the concrete bus `busEx` and event `eNotif`. -/
theorem C4_publish_error_handling_witness :
    BusWF 1 busEx ∧
    ((busEx.topics eNotif.topic = none →
        publish_event String.length busEx eNotif "" =
          some (Except.error "Topic does not exist to publish.")) ∧
    (∀ pc, busEx.topics eNotif.topic = some pc →
        busEx.consumer_groups_by_topic_name eNotif.topic = [] →
        publish_event String.length busEx eNotif "" =
          some (Except.ok (false, busEx, eNotif))) ∧
    (∀ pc, busEx.topics eNotif.topic = some pc →
        busEx.consumer_groups_by_topic_name eNotif.topic ≠ [] →
        ∃ res b1 e1, publish_event String.length busEx eNotif "" =
            some (Except.ok (res, b1, e1)) ∧
          (res = true ↔ ∀ g ∈ busEx.consumer_groups_by_topic_name eNotif.topic,
              ∀ q, g.partition_queues[get_partition_index String.length
                (busEx.message_id_by_topic_name eNotif.topic) pc ""]? = some q →
              q.tail - q.head < q.capacity))) :=
  ⟨busEx_wf, C4_publish_error_handling String.length 1 busEx eNotif "" busEx_wf⟩

/-- C10: when the topic exists but no consumer group subscribes,
`publish_event` returns `false` before the id-assignment step: the returned
bus state is exactly the input state (in particular every per-topic counter
is unchanged) and the event is returned unchanged, so the next accepted
publish to that topic still receives the next consecutive id and no id value
is ever skipped on the no-subscriber path. -/
theorem C10_no_subscriber_frame (hash : String → Nat) (b : Bus) (e : Event)
    (key : String) (pc : Nat) (hpc : b.topics e.topic = some pc)
    (hgs : b.consumer_groups_by_topic_name e.topic = []) :
    publish_event hash b e key = some (Except.ok (false, b, e)) ∧
    (∀ bR eR res, publish_event hash b e key = some (Except.ok (res, bR, eR)) →
        bR.message_id_by_topic_name = b.message_id_by_topic_name ∧
        bR = b ∧ eR = e ∧ res = false) := by
  have hmain : publish_event hash b e key = some (Except.ok (false, b, e)) := by
    simp only [publish_event, hpc, hgs]
  refine ⟨hmain, ?_⟩
  intro bR eR res h
  rw [hmain] at h
  simp only [Option.some.injEq, Except.ok.injEq, Prod.mk.injEq] at h
  obtain ⟨h1, h2, h3⟩ := h
  exact ⟨by rw [← h2], h2.symm, h3.symm, h1.symm⟩

/-- An event addressed to the subscriber-less topic "lonely". -/
def eLonely : Event :=
  { topic := "lonely", payload := "p", id := 7, timestamp := 9 }

/-- Witness for C10 on the concrete bus `busEx` and event `eLonely`. -/
theorem C10_no_subscriber_frame_witness :
    busEx.topics eLonely.topic = some 1 ∧
    busEx.consumer_groups_by_topic_name eLonely.topic = [] ∧
    (publish_event String.length busEx eLonely "" =
        some (Except.ok (false, busEx, eLonely)) ∧
    (∀ bR eR res, publish_event String.length busEx eLonely "" =
        some (Except.ok (res, bR, eR)) →
        bR.message_id_by_topic_name = busEx.message_id_by_topic_name ∧
        bR = busEx ∧ eR = eLonely ∧ res = false)) :=
  ⟨by rfl, by rfl,
   C10_no_subscriber_frame String.length busEx eLonely "" 1 (by rfl) (by rfl)⟩

/-- Run a list of `publish_event` calls in order, threading the bus state
and collecting each call's boolean result together with the stamped event;
a thrown exception or a diverging enqueue aborts the trace. -/
def runPublishes (hash : String → Nat) : Bus → List (Event × String) →
    Option (Bus × List (Bool × Event))
  | b, [] => some (b, [])
  | b, (e, key) :: rest =>
      match publish_event hash b e key with
      | some (Except.ok (r, b1, e1)) =>
          match runPublishes hash b1 rest with
          | none => none
          | some (bf, outs) => some (bf, (r, e1) :: outs)
      | _ => none

lemma forall2_mem_right {α β : Type} {R : α → β → Prop} :
    ∀ {l1 : List α} {l2 : List β}, List.Forall₂ R l1 l2 →
      ∀ y ∈ l2, ∃ x ∈ l1, R x y := by
  intro l1 l2 h
  induction h with
  | nil =>
      intro y hy
      exact absurd hy (List.not_mem_nil y)
  | cons hR hrest ih =>
      intro y hy
      rcases List.mem_cons.1 hy with heq | hmem
      · exact ⟨_, by simp, heq ▸ hR⟩
      · obtain ⟨x, hx, hRx⟩ := ih y hmem
        exact ⟨x, List.mem_cons_of_mem _ hx, hRx⟩

lemma runPublishes_ids (hash : String → Nat) {k : Nat} :
    ∀ (evs : List (Event × String)) (b : Bus), BusWF k b →
    (∀ p ∈ evs, (∃ pc, b.topics p.1.topic = some pc) ∧
        b.consumer_groups_by_topic_name p.1.topic ≠ []) →
    ∃ bf outs, runPublishes hash b evs = some (bf, outs) ∧
      (∀ t, bf.message_id_by_topic_name t = b.message_id_by_topic_name t +
          (evs.filter (fun p => p.1.topic = t)).length) ∧
      (∀ t, outs.filterMap
            (fun r => if r.2.topic = t then some r.2.id else none) =
          List.range' (b.message_id_by_topic_name t)
            ((evs.filter (fun p => p.1.topic = t)).length)) := by
  intro evs
  induction evs with
  | nil =>
      intro b hwf hsub
      exact ⟨b, [], rfl, by simp, by simp⟩
  | cons p rest ih =>
      intro b hwf hsub
      obtain ⟨e, key⟩ := p
      obtain ⟨⟨pc, hpc⟩, hne⟩ := hsub (e, key) (by simp)
      obtain ⟨res, gs1, hpub, hres, hfa⟩ := publish_spec hash b e key hwf pc hpc hne
      set b1 : Bus :=
        { topics := b.topics,
          consumer_groups_by_topic_name := fun t =>
            if t = e.topic then gs1 else b.consumer_groups_by_topic_name t,
          message_id_by_topic_name := fun t =>
            if t = e.topic then b.message_id_by_topic_name e.topic + 1
            else b.message_id_by_topic_name t } with hb1
      have hglen : gs1.length = (b.consumer_groups_by_topic_name e.topic).length :=
        hfa.length_eq.symm
      have hwf1 : BusWF k b1 := by
        intro t g hg
        by_cases ht : t = e.topic
        · subst ht
          rw [hb1] at hg
          simp at hg
          obtain ⟨g0, hg0, hlen0, hinv0⟩ := forall2_mem_right hfa g hg
          obtain ⟨pc0, hpc0, hpos0, hlen00, _⟩ := hwf e.topic g0 hg0
          exact ⟨pc0, hpc0, hpos0, by omega, hinv0⟩
        · rw [hb1] at hg
          simp only [if_neg ht] at hg
          exact hwf t g hg
      have hsub1 : ∀ p ∈ rest, (∃ pc2, b1.topics p.1.topic = some pc2) ∧
          b1.consumer_groups_by_topic_name p.1.topic ≠ [] := by
        intro p hp
        obtain ⟨⟨pc2, hpc2⟩, hne2⟩ := hsub p (List.mem_cons_of_mem _ hp)
        refine ⟨⟨pc2, hpc2⟩, ?_⟩
        by_cases ht : p.1.topic = e.topic
        · show (if p.1.topic = e.topic then gs1
              else b.consumer_groups_by_topic_name p.1.topic) ≠ []
          rw [if_pos ht]
          intro hnil
          rw [hnil] at hglen
          rw [ht] at hne2
          exact hne2 (List.eq_nil_of_length_eq_zero hglen.symm)
        · show (if p.1.topic = e.topic then gs1
              else b.consumer_groups_by_topic_name p.1.topic) ≠ []
          rw [if_neg ht]
          exact hne2
      obtain ⟨bf, outs, hrun, hmsg, hids⟩ := ih b1 hwf1 hsub1
      refine ⟨bf, (res, { e with id := b.message_id_by_topic_name e.topic }) :: outs,
        ?_, ?_, ?_⟩
      · simp only [runPublishes, hpub, hrun]
      · intro t
        have h1 := hmsg t
        simp only [List.filter_cons, decide_eq_true_eq]
        by_cases ht : e.topic = t
        · subst ht
          rw [if_pos rfl, List.length_cons]
          rw [hb1] at h1
          simp at h1
          omega
        · rw [if_neg ht]
          have hne1 : ¬ (t = e.topic) := fun hc => ht hc.symm
          rw [hb1] at h1
          simp only [if_neg hne1] at h1
          omega
      · intro t
        have h2 := hids t
        by_cases ht : e.topic = t
        · subst ht
          rw [hb1] at h2
          simp at h2
          simp [h2, List.filter_cons, List.range'_succ]
        · have hne1 : ¬ (t = e.topic) := fun hc => ht hc.symm
          rw [hb1] at h2
          simp only [if_neg hne1] at h2
          simp [ht, h2, List.filter_cons]

/-- C9: starting from a bus whose per-topic counters are all fresh (zero),
any sequence of publishes whose topics are registered and have subscribers
(so that every call reaches the id-assignment step) assigns, per topic `t`,
the ids 0, 1, 2, … in publish order: the ids carried by the stamped events
of the calls on topic `t` form exactly `List.range n` with `n` the number of
such calls, and the counter of each topic advances independently of the
publishes on all other topics. -/
theorem C9_per_topic_ids (hash : String → Nat) (k : Nat) (b : Bus)
    (evs : List (Event × String)) (hwf : BusWF k b)
    (hfresh : ∀ t, b.message_id_by_topic_name t = 0)
    (hsub : ∀ p ∈ evs, (∃ pc, b.topics p.1.topic = some pc) ∧
        b.consumer_groups_by_topic_name p.1.topic ≠ []) :
    ∃ bf outs, runPublishes hash b evs = some (bf, outs) ∧
      ∀ t, outs.filterMap (fun r => if r.2.topic = t then some r.2.id else none) =
          List.range ((evs.filter (fun p => p.1.topic = t)).length) ∧
        bf.message_id_by_topic_name t =
          (evs.filter (fun p => p.1.topic = t)).length := by
  obtain ⟨bf, outs, hrun, hmsg, hids⟩ := runPublishes_ids hash evs b hwf hsub
  refine ⟨bf, outs, hrun, ?_⟩
  intro t
  constructor
  · rw [hids t, hfresh t, List.range_eq_range']
  · rw [hmsg t, hfresh t, Nat.zero_add]

/-- A second event for the subscribed topic. -/
def eNotif2 : Event :=
  { topic := "notifications", payload := "m1", id := 0, timestamp := 6 }

/-- Witness for C9: two publishes to "notifications" on the concrete bus
`busEx` receive the ids 0 and 1. -/
theorem C9_per_topic_ids_witness :
    BusWF 1 busEx ∧ (∀ t, busEx.message_id_by_topic_name t = 0) ∧
    (∀ p ∈ [(eNotif, ""), (eNotif2, "")],
        (∃ pc, busEx.topics p.1.topic = some pc) ∧
        busEx.consumer_groups_by_topic_name p.1.topic ≠ []) ∧
    (∃ bf outs, runPublishes String.length busEx [(eNotif, ""), (eNotif2, "")] =
        some (bf, outs) ∧
      ∀ t, outs.filterMap (fun r => if r.2.topic = t then some r.2.id else none) =
          List.range (([(eNotif, ""), (eNotif2, "")].filter
            (fun p => p.1.topic = t)).length) ∧
        bf.message_id_by_topic_name t =
          ([(eNotif, ""), (eNotif2, "")].filter (fun p => p.1.topic = t)).length) := by
  have hsub : ∀ p ∈ [(eNotif, ""), (eNotif2, "")],
      (∃ pc, busEx.topics p.1.topic = some pc) ∧
      busEx.consumer_groups_by_topic_name p.1.topic ≠ [] := by
    intro p hp
    rcases List.mem_cons.1 hp with h | hp2
    · subst h
      exact ⟨⟨1, rfl⟩, by simp [busEx, eNotif]⟩
    · rcases List.mem_cons.1 hp2 with h | hp3
      · subst h
        exact ⟨⟨1, rfl⟩, by simp [busEx, eNotif2]⟩
      · exact absurd hp3 (List.not_mem_nil p)
  exact ⟨busEx_wf, fun t => rfl, hsub,
    C9_per_topic_ids String.length 1 busEx [(eNotif, ""), (eNotif2, "")]
      busEx_wf (fun t => rfl) hsub⟩
